import Mathlib

/-!
Shallow embedding of the `mafic` cycle executor (wire map, register map,
suspension primitives, scheduler) and proofs about the claims of its
specification.

Values are embedded as `Nat`: the Rust core is generic over a copyable value
type `T` and stores it type-erased; every claim under study is about the
data-flow of values, not about the type tags, so a single value type suffices
and the type-tag machinery is not modelled.  Panics (`unwrap`, `assert!`)
are embedded as `Except.error`.
-/

namespace Mafic

/-- Fatal conditions of the simulator.  `unknownHandle` stands for the
`unwrap()` panic on a missing map entry, `wireConflict` for the fatal wire
drive conflict, and `stepLimit` for the `assert!(self.steps < 32, "step
limit")` panic in `Engine::run`. -/
inductive SimErr where
  | unknownHandle (id : Nat)
  | wireConflict (id prev new : Nat)
  | stepLimit
deriving DecidableEq, Repr

/-- `WireState<T>` from `wire.rs`: `data: Option<T>`, `None` meaning the wire
has not been driven during the current cycle.  A `WireMap` entry `none` means
the id was never allocated; `some cell` is an allocated wire holding `cell`. -/
structure WireMap where
  data : Nat → Option (Option Nat)
  next_sid : Nat

/-- `WireMap::new`: empty map, ids assigned from 1. -/
def WireMap.new : WireMap := ⟨fun _ => none, 1⟩

/-- `WireMap::alloc`: inserts a fresh wire with `data: None` and returns its id. -/
def WireMap.alloc (m : WireMap) : WireMap × Nat :=
  ({ data := Function.update m.data m.next_sid (some none),
     next_sid := m.next_sid + 1 }, m.next_sid)

/-- `WireMap::peek_wire`: returns the wire cell; the `unwrap()` on an unknown
id is a panic, embedded as an error. -/
def WireMap.peek_wire (m : WireMap) (w : Nat) : Except SimErr (Option Nat) :=
  match m.data w with
  | none => .error (.unknownHandle w)
  | some cell => .ok cell

/-- `WireMap::reset`: sets every allocated wire cell back to `None`. -/
def WireMap.reset (m : WireMap) : WireMap :=
  { m with data := fun w => (m.data w).map (fun _ => none) }

/-- Modelled from the spec: `EngineState::read_wire` is called from
`CombFuture::poll` and `AssignFuture::poll` but its definition is not in the
sources.  Spec section 4.2 gives `read` the same contract as `peek`: return
the current cell value, hard error on an unknown handle. -/
def read_wire (m : WireMap) (w : Nat) : Except SimErr (Option Nat) :=
  m.peek_wire w

/-- Modelled from the spec: `EngineState::write_wire` is called from
`CombDriveFuture::poll` and `AssignFuture::poll` but its definition is not in
the sources.  Spec section 4.2: `write` is `Fresh` if the cell was empty (now
holds `v`) and `Conflict(prev)` otherwise; the scheduler upgrades `Conflict`
to a fatal error (section 7 `WireConflict`), and section 9 mandates rejection
over silent overwrite. -/
def write_wire (m : WireMap) (w v : Nat) : Except SimErr WireMap :=
  match m.data w with
  | none => .error (.unknownHandle w)
  | some none => .ok { m with data := Function.update m.data w (some (some v)) }
  | some (some prev) => .error (.wireConflict w prev v)

/-- `RegisterState<T>` from `register.rs`: current value `data`, the value on
reset `reset_data`, and the pending "input wire" `next`. -/
structure RegisterState where
  data : Nat
  reset_data : Nat
  next : Option Nat
deriving DecidableEq, Repr

/-- `RegisterState::update`: `if let Some(data) = self.next.take() { self.data = data; }`. -/
def RegisterState.update (s : RegisterState) : RegisterState :=
  match s.next with
  | some d => { s with data := d, next := none }
  | none => s

/-- `RegisterState::reset`: `self.data = self.reset_data.clone()`; note the
source does not touch `next` here. -/
def RegisterState.reset (s : RegisterState) : RegisterState :=
  { s with data := s.reset_data }

/-- `RegisterMap` from `register.rs`. -/
structure RegisterMap where
  data : Nat → Option RegisterState
  next_sid : Nat

/-- `RegisterMap::new`. -/
def RegisterMap.new : RegisterMap := ⟨fun _ => none, 1⟩

/-- `RegisterMap::alloc`: fresh register with `data = init`, `reset_data = init`,
`next = None`. -/
def RegisterMap.alloc (m : RegisterMap) (init : Nat) : RegisterMap × Nat :=
  ({ data := Function.update m.data m.next_sid (some ⟨init, init, none⟩),
     next_sid := m.next_sid + 1 }, m.next_sid)

/-- `RegisterMap::peek_register`: returns the current value `data`; the
`unwrap()` on an unknown id is a panic. -/
def RegisterMap.peek_register (m : RegisterMap) (r : Nat) : Except SimErr Nat :=
  match m.data r with
  | none => .error (.unknownHandle r)
  | some s => .ok s.data

/-- The body of `SyncDriveFuture::poll`: look the register up (panicking on an
unknown id) and set `s.next = Some(self.data)` unconditionally. -/
def RegisterMap.stage (m : RegisterMap) (r v : Nat) : Except SimErr RegisterMap :=
  match m.data r with
  | none => .error (.unknownHandle r)
  | some s =>
    .ok { m with data := Function.update m.data r (some { s with next := some v }) }

/-- `RegisterMap::update`: propagate `RegisterState::update` to every register. -/
def RegisterMap.update (m : RegisterMap) : RegisterMap :=
  { m with data := fun r => (m.data r).map RegisterState.update }

/-- `EngineState` from `engine.rs`: the wire map plus the register map. -/
structure EngineState where
  wires : WireMap
  registers : RegisterMap

/-- `EngineState::new`. -/
def EngineState.new : EngineState := ⟨WireMap.new, RegisterMap.new⟩

/-- A task body: the `async` block a module contributes for one cycle,
written as a tree of the five suspension primitives of `wire.rs` and
`register.rs`.  A continuation of type `Nat → Task` lets a sampled value flow
into the rest of the body, exactly as a sampled value flows into the rest of
a Rust `async` block. -/
inductive Task where
  | done : Task
  | sampleWire (w : Nat) (k : Nat → Task)
  | driveWire (w v : Nat) (k : Task)
  | assignW (src tgt : Nat) (k : Task)
  | sampleReg (r : Nat) (k : Nat → Task)
  | driveReg (r v : Nat) (k : Task)

/-- One poll of a task's future against `EngineState`.  A Rust poll resumes
the `async` body at its last suspension point and runs it until it either
finishes (`Ready`, here `none`) or suspends (`Pending`, here `some` of the
residual task).  The primitives behave as in the sources:
`CombFuture::poll` (sampleWire) and `AssignFuture::poll` (assignW) return
`Pending` while the source wire reads `None`; `CombDriveFuture::poll`
(driveWire) writes and is always ready; `SyncFuture::poll` (sampleReg)
returns `current`; `SyncDriveFuture::poll` (driveReg) stages the pending
value. -/
def pollTask : EngineState → Task → Except SimErr (EngineState × Option Task)
  | s, .done => .ok (s, none)
  | s, .sampleWire w k =>
    match read_wire s.wires w with
    | .error e => .error e
    | .ok none => .ok (s, some (.sampleWire w k))
    | .ok (some v) => pollTask s (k v)
  | s, .driveWire w v k =>
    match write_wire s.wires w v with
    | .error e => .error e
    | .ok wm => pollTask { s with wires := wm } k
  | s, .assignW src tgt k =>
    match read_wire s.wires src with
    | .error e => .error e
    | .ok none => .ok (s, some (.assignW src tgt k))
    | .ok (some v) =>
      match write_wire s.wires tgt v with
      | .error e => .error e
      | .ok wm => pollTask { s with wires := wm } k
  | s, .sampleReg r k =>
    match s.registers.peek_register r with
    | .error e => .error e
    | .ok v => pollTask s (k v)
  | s, .driveReg r v k =>
    match s.registers.stage r v with
    | .error e => .error e
    | .ok rm => pollTask { s with registers := rm } k

/-- `EngineTask` from `engine.rs`: a name plus the pending future. -/
structure EngineTask where
  name : String
  fut : Task

/-- The hardcoded bound in `Engine::run`: `assert!(self.steps < 32, "step limit")`. -/
def STEP_LIMIT : Nat := 32

/-- `Engine` from `engine.rs`: FIFO task queue, shared state, a cumulative
scheduler-step counter and a cycle counter. -/
structure Engine where
  tasks : List EngineTask
  state : EngineState
  steps : Nat
  cycles : Nat

/-- `Engine::new`: empty queue, `steps = 0`, `cycles = 0`. -/
def Engine.new (state : EngineState) : Engine := ⟨[], state, 0, 0⟩

/-- `Engine::schedule`: append a named task to the queue. -/
def Engine.schedule (e : Engine) (name : String) (fut : Task) : Engine :=
  { e with tasks := e.tasks ++ [⟨name, fut⟩] }

/-- The loop of `Engine::run`: pop the head task; panic with "step limit"
when `steps < 32` fails; poll it; a pending task goes to the back of the
queue and increments `steps`; a completed task is dropped. -/
def Engine.runLoop (e : Engine) : Except SimErr Engine :=
  match h : e.tasks with
  | [] => .ok e
  | t :: rest =>
    if hs : e.steps < STEP_LIMIT then
      match pollTask e.state t.fut with
      | .error err => .error err
      | .ok (s', none) =>
        Engine.runLoop { tasks := rest, state := s', steps := e.steps, cycles := e.cycles }
      | .ok (s', some t') =>
        Engine.runLoop { tasks := rest ++ [{ t with fut := t' }], state := s',
                         steps := e.steps + 1, cycles := e.cycles }
    else .error .stepLimit
termination_by (STEP_LIMIT - e.steps, e.tasks.length)
decreasing_by
  · apply Prod.Lex.right
    simp [h]
  · apply Prod.Lex.left
    omega

/-- Fuelled twin of `Engine.runLoop` used to evaluate the loop on concrete
inputs: the loop body is identical, and `runLoopFuel_eq` shows the two agree
whenever the fuel exceeds the loop's iteration measure (which it always can,
since every iteration either shortens the queue or spends one of the at most
`STEP_LIMIT` step increments). -/
def runLoopFuel : Nat → Engine → Except SimErr Engine
  | 0, _ => .error .stepLimit
  | fuel + 1, e =>
    match e.tasks with
    | [] => .ok e
    | t :: rest =>
      if e.steps < STEP_LIMIT then
        match pollTask e.state t.fut with
        | .error err => .error err
        | .ok (s', none) =>
          runLoopFuel fuel { tasks := rest, state := s', steps := e.steps, cycles := e.cycles }
        | .ok (s', some t') =>
          runLoopFuel fuel { tasks := rest ++ [{ t with fut := t' }], state := s',
                             steps := e.steps + 1, cycles := e.cycles }
      else .error .stepLimit

/-- `Engine::reset_wires`. -/
def Engine.reset_wires (e : Engine) : Engine :=
  { e with state := { e.state with wires := e.state.wires.reset } }

/-- `Engine::update_registers`. -/
def Engine.update_registers (e : Engine) : Engine :=
  { e with state := { e.state with registers := e.state.registers.update } }

/-- `Engine::step`: `run(); reset_wires(); update_registers(); cycles += 1`. -/
def Engine.step (e : Engine) : Except SimErr Engine :=
  match e.runLoop with
  | .error err => .error err
  | .ok e' =>
    .ok { e'.reset_wires.update_registers with cycles := e'.cycles + 1 }

/-- Evaluable twin of `Engine.step`, built on `runLoopFuel`;
`step_eq_stepFuel` shows it agrees with `Engine.step` everywhere. -/
def Engine.stepFuel (e : Engine) : Except SimErr Engine :=
  match runLoopFuel (e.tasks.length + STEP_LIMIT + 1) e with
  | .error err => .error err
  | .ok e' =>
    .ok { e'.reset_wires.update_registers with cycles := e'.cycles + 1 }

/-- All tasks of a queue are stuck: polling any of them against the current
state suspends, returning the same residual task and leaving the state
unchanged.  This is the configuration a deadlocked (cyclic or undriven-read)
model reaches. -/
def AllBlocked (s : EngineState) (ts : List EngineTask) : Prop :=
  ∀ t ∈ ts, pollTask s t.fut = .ok (s, some t.fut)

/-! ### Concrete fixtures used by witnesses and counterexamples -/

/-- A wire map holding exactly one allocated, undriven wire with id 1. -/
def oneWire : WireMap := ⟨fun w => if w = 1 then some none else none, 2⟩

/-- A register map holding exactly one allocated register with id 1,
current value 0, reset value 0 and pending slot already `Some 1`. -/
def onePendingReg : RegisterMap := ⟨fun r => if r = 1 then some ⟨0, 0, some 1⟩ else none, 2⟩

/-- A register map holding one register with id 1, current value 3, reset
value 0, empty pending slot. -/
def oneQuietReg : RegisterMap := ⟨fun r => if r = 1 then some ⟨3, 0, none⟩ else none, 2⟩

/-- An engine whose queue is already empty and whose single register holds
current value 5 with reset value 0 and no pending write. -/
def drainedEngine : Engine :=
  ⟨[], ⟨WireMap.new, ⟨fun r => if r = 1 then some ⟨5, 0, none⟩ else none, 2⟩⟩, 0, 0⟩

/-- An engine whose queue is already empty and whose single wire (id 1) was
driven to 7 during the elapsed cycle. -/
def drivenWireEngine : Engine :=
  ⟨[], ⟨⟨fun w => if w = 1 then some (some 7) else none, 2⟩, RegisterMap.new⟩, 0, 0⟩

/-- An engine holding one trivial task whose step counter already reached the
hardcoded limit. -/
def limitEngine : Engine := ⟨[⟨"t", .done⟩], EngineState.new, 32, 0⟩

/-- An engine holding one trivial task and a fresh step counter. -/
def smallEngine : Engine := ⟨[⟨"t", .done⟩], EngineState.new, 0, 0⟩

/-- State with two allocated, undriven wires (ids 1 and 2). -/
def twoWireState : EngineState :=
  ⟨⟨fun w => if w = 1 ∨ w = 2 then some none else none, 3⟩, RegisterMap.new⟩

/-- Deadlocked task A of spec scenario 6: samples wire 1, then would drive
wire 2. -/
def dTaskA : EngineTask := ⟨"A", .sampleWire 1 (fun v => .driveWire 2 v .done)⟩

/-- Deadlocked task B of spec scenario 6: samples wire 2, then would drive
wire 1. -/
def dTaskB : EngineTask := ⟨"B", .sampleWire 2 (fun v => .driveWire 1 v .done)⟩

/-- The deadlocked engine of spec scenario 6: a cyclic data dependency. -/
def deadlockEngine : Engine := ⟨[dTaskA, dTaskB], twoWireState, 0, 0⟩

/-- State with a single allocated, undriven wire (id 1), used by the
repeated-`step` scenario. -/
def oneWireState : EngineState := ⟨oneWire, RegisterMap.new⟩

/-- One simulated cycle of a well-behaved two-task model: a consumer that
samples wire 1 and a producer that drives it, scheduled in the order that
costs exactly one pending poll, then `step()`. -/
def wbCycle (e : Engine) : Except SimErr Engine :=
  ((e.schedule "consume" (.sampleWire 1 (fun _ => .done))).schedule
    "produce" (.driveWire 1 0 .done)).step

/-- `wbCycle` with `Engine.step` replaced by its evaluable twin. -/
def wbCycleFuel (e : Engine) : Except SimErr Engine :=
  ((e.schedule "consume" (.sampleWire 1 (fun _ => .done))).schedule
    "produce" (.driveWire 1 0 .done)).stepFuel

/-- Iterate `wbCycle`, stopping at the first fatal error. -/
def wbIter : Nat → Engine → Except SimErr Engine
  | 0, e => .ok e
  | n + 1, e =>
    match wbCycle e with
    | .error err => .error err
    | .ok e' => wbIter n e'

/-- Iterate `wbCycleFuel`. -/
def wbIterFuel : Nat → Engine → Except SimErr Engine
  | 0, e => .ok e
  | n + 1, e =>
    match wbCycleFuel e with
    | .error err => .error err
    | .ok e' => wbIterFuel n e'

/-- Whether a run outcome is a success. -/
def isOkE : Except SimErr Engine → Bool
  | .ok _ => true
  | .error _ => false

/-- The step counter of a successful run outcome. -/
def okSteps : Except SimErr Engine → Option Nat
  | .ok e => some e.steps
  | .error _ => none

/-- The committed value of register `r` after a successful run outcome. -/
def okRegPeek : Except SimErr Engine → Nat → Option Nat
  | .ok e, r =>
    match e.state.registers.peek_register r with
    | .ok v => some v
    | .error _ => none
  | .error _, _ => none

/-- A combinational chain: task `i` samples wire `i` and drives wire `i+1`. -/
def chainTask (i : Nat) : Task := .sampleWire i (fun v => .driveWire (i + 1) v .done)

/-- State with wires 1..34 allocated and undriven. -/
def chainState : EngineState :=
  ⟨⟨fun w => if 1 ≤ w ∧ w ≤ 34 then some none else none, 35⟩, RegisterMap.new⟩

/-- An acyclic 34-task model: 33 chain stages (sampling wires 1..33) plus the
driver of wire 1, scheduled last.  Its read/write dependency graph is a DAG
and every sampled wire has exactly one driver. -/
def chainEngine : Engine :=
  ⟨(List.range 33).map (fun i => ⟨"stage", chainTask (i + 1)⟩) ++
     [⟨"driver", .driveWire 1 1 .done⟩], chainState, 0, 0⟩

/-- A one-shot drive operation: the body of a task that only drives a single
wire or a single register and completes. -/
inductive DriveOp where
  | wire (w v : Nat)
  | reg (r v : Nat)
deriving DecidableEq, Repr

/-- The task body of a `DriveOp`. -/
def DriveOp.toTask : DriveOp → Task
  | .wire w v => .driveWire w v .done
  | .reg r v => .driveReg r v .done

/-- The engine obtained by issuing one `schedule` call per drive, in list
order, on a fresh engine over state `s`. -/
def mkDriveEngine (l : List DriveOp) (s : EngineState) : Engine :=
  ⟨l.map fun d => ⟨"drive", d.toTask⟩, s, 0, 0⟩

/-- State with one undriven wire (id 1) and one register (id 1, value 0). -/
def oneWireOneRegState : EngineState :=
  ⟨oneWire, ⟨fun r => if r = 1 then some ⟨0, 0, none⟩ else none, 2⟩⟩

/-- Two tasks driving the same register with different values, in one order. -/
def sameRegAB : Engine := mkDriveEngine [.reg 1 1, .reg 1 2] oneWireOneRegState

/-- The same two tasks, scheduled in the opposite order. -/
def sameRegBA : Engine := mkDriveEngine [.reg 1 2, .reg 1 1] oneWireOneRegState

/-! ### Sample-then-drive tasks

The task-graph shape the spec's P5/P7 "read/write dependency graph" talks
about: a module's per-cycle body samples a fixed list of signals and then
drives a fixed list of signals with values computed from the samples.  The
`STask.toTask` translation produces exactly the nested suspension-primitive
body such a module contributes. -/

/-- One sampled signal of a sample-then-drive task. -/
inductive SRead where
  | wireR (w : Nat)
  | regR (r : Nat)

/-- One driven signal of a sample-then-drive task, with the function
computing the driven value from the list of sampled values. -/
inductive SWrite where
  | wireW (w : Nat) (f : List Nat → Nat)
  | regW (r : Nat) (f : List Nat → Nat)

/-- A sample-then-drive task: its read list and its write list. -/
structure STask where
  reads : List SRead
  writes : List SWrite

/-- The drive phase of a sample-then-drive body: issue every drive in order,
feeding each value function the sampled values. -/
def driveSeq (vs : List Nat) : List SWrite → Task
  | [] => .done
  | .wireW w f :: ds => .driveWire w (f vs) (driveSeq vs ds)
  | .regW r f :: ds => .driveReg r (f vs) (driveSeq vs ds)

/-- The sample phase of a sample-then-drive body: await each read in order,
accumulating the sampled values for the continuation. -/
def sampleSeq : List SRead → (List Nat → Task) → Task
  | [], k => k []
  | .wireR w :: rs, k => .sampleWire w (fun v => sampleSeq rs (fun vs => k (v :: vs)))
  | .regR r :: rs, k => .sampleReg r (fun v => sampleSeq rs (fun vs => k (v :: vs)))

/-- The task body of a sample-then-drive task. -/
def STask.toTask (t : STask) : Task :=
  sampleSeq t.reads (fun vs => driveSeq vs t.writes)

/-- The register ids a drive list stages. -/
def wRegTargets (ds : List SWrite) : List Nat :=
  ds.filterMap fun d =>
    match d with
    | .regW r _ => some r
    | .wireW _ _ => none

/-- The register ids a sample-then-drive task drives. -/
def sRegTargets (t : STask) : List Nat := wRegTargets t.writes

/-- All register ids driven across a task list (with multiplicity). -/
def allRegTargets (ts : List STask) : List Nat := (ts.map sRegTargets).flatten

/-- The engine obtained by one `schedule` call per sample-then-drive task, in
list order, on a fresh engine over state `s`. -/
def mkSEngine (ts : List STask) (s : EngineState) : Engine :=
  ⟨ts.map fun t => ⟨"module", t.toTask⟩, s, 0, 0⟩

/-- The observable register fields that the scheduler never changes during a
cycle: allocation, current value and reset value. -/
def regSig (st : RegisterState) : Nat × Nat := (st.data, st.reset_data)

/-- The pending slot of a register (`none` when unallocated). -/
def regNext (s : EngineState) (r : Nat) : Option (Option Nat) :=
  (s.registers.data r).map fun st => st.next

/-- How one poll (or a whole run) may change the state: driven wires keep
their values, undriven cells can only become driven, and every register keeps
its allocation, current value and reset value. -/
def StateEvolve (s s' : EngineState) : Prop :=
  (∀ w v, s.wires.data w = some (some v) → s'.wires.data w = some (some v)) ∧
  (∀ w, s'.wires.data w = s.wires.data w ∨
    (s.wires.data w = some none ∧ ∃ v, s'.wires.data w = some (some v))) ∧
  (∀ r, (s'.registers.data r).map regSig = (s.registers.data r).map regSig)

/-- The facts about a state that a read can rely on when its run ends in
state `F`: driven wires of `s` are driven with the same value in `F`, and
registers agree on allocation, current value and reset value. -/
def ReadAgree (s F : EngineState) : Prop :=
  (∀ w v, s.wires.data w = some (some v) → F.wires.data w = some (some v)) ∧
  (∀ r, (s.registers.data r).map regSig = (F.registers.data r).map regSig)

/-- The value a read observes in state `F`. -/
def readVal (F : EngineState) : SRead → Nat → Prop
  | .wireR w, v => F.wires.data w = some (some v)
  | .regR r, v => ∃ st, F.registers.data r = some st ∧ st.data = v

/-- The values a read list observes in state `F`. -/
def readValsF (F : EngineState) : List SRead → List Nat → Prop :=
  List.Forall₂ (readVal F)

/-- A task `τ` is a residual of the sample-then-drive task `t`, relative to a
final state `F`: some prefix of `t.reads` has been consumed, the captured
values are the `F`-values of that prefix, and `τ` continues with the
remaining reads and then the drives. -/
def Resid (F : EngineState) (t : STask) (τ : Task) : Prop :=
  ∃ c rs vs, t.reads = c ++ rs ∧ readValsF F c vs ∧
    τ = sampleSeq rs (fun vs' => driveSeq (vs ++ vs') t.writes)

/-- The equations a completed run's final state `F` satisfies for a
sample-then-drive task `t`: `t`'s reads are all observable in `F`, every wire
`t` drives holds the computed value, and every register `t` drives has the
computed value staged. -/
def EqnsHold (F : EngineState) (t : STask) : Prop :=
  ∃ vals, readValsF F t.reads vals ∧
    (∀ w f, SWrite.wireW w f ∈ t.writes → F.wires.data w = some (some (f vals))) ∧
    (∀ r f, SWrite.regW r f ∈ t.writes → regNext F r = some (some (f vals)))

/-- Total extractor for a run outcome, used to name concrete final engines. -/
def forceOk : Except SimErr Engine → Engine
  | .ok e => e
  | .error _ => Engine.new EngineState.new

/-- Chain stage `i` as a sample-then-drive task: samples wire `i`, drives
wire `i+1` with the sampled value. -/
def sChainStage (i : Nat) : STask := ⟨[.wireR i], [.wireW (i + 1) (fun vs => vs.headI)]⟩

/-- The driver of wire 1 as a sample-then-drive task. -/
def sChainDriver : STask := ⟨[], [.wireW 1 (fun _ => 1)]⟩

/-- The 34-task acyclic chain with the driver scheduled first: every sample
is satisfied in the first rotation. -/
def sChainGood : List STask :=
  sChainDriver :: (List.range 33).map (fun i => sChainStage (i + 1))

/-- The same 34 tasks with the driver scheduled last — a permutation of
`sChainGood`. -/
def sChainBad : List STask :=
  (List.range 33).map (fun i => sChainStage (i + 1)) ++ [sChainDriver]

/-- A producer task: drives wire 1 with the constant 7. -/
def sProducer : STask := ⟨[], [.wireW 1 (fun _ => 7)]⟩

/-- A consumer task: samples wire 1, drives wire 2 with the sampled value
plus one, and stages the sampled value into register 1. -/
def sConsumer : STask :=
  ⟨[.wireR 1], [.wireW 2 (fun vs => vs.headI + 1), .regW 1 (fun vs => vs.headI)]⟩

/-- The producer/consumer pair in one schedule order. -/
def sPair₁ : List STask := [sProducer, sConsumer]

/-- The producer/consumer pair in the opposite schedule order. -/
def sPair₂ : List STask := [sConsumer, sProducer]

/-- State with wires 1 and 2 allocated and register 1 allocated at 0. -/
def sPairState : EngineState :=
  ⟨⟨fun w => if w = 1 ∨ w = 2 then some none else none, 3⟩,
   ⟨fun r => if r = 1 then some ⟨0, 0, none⟩ else none, 2⟩⟩

/-- The final engine of the producer-first run of the pair. -/
def sPairRun₁ : Engine :=
  forceOk (runLoopFuel ((mkSEngine sPair₁ sPairState).tasks.length + STEP_LIMIT + 1)
    (mkSEngine sPair₁ sPairState))

/-- The final engine of the consumer-first run of the pair. -/
def sPairRun₂ : Engine :=
  forceOk (runLoopFuel ((mkSEngine sPair₂ sPairState).tasks.length + STEP_LIMIT + 1)
    (mkSEngine sPair₂ sPairState))

/-! ### General lemmas about the loop -/

theorem runLoopFuel_eq (fuel : Nat) :
    ∀ e : Engine, e.tasks.length + (STEP_LIMIT - e.steps) < fuel →
      runLoopFuel fuel e = e.runLoop := by
  induction fuel with
  | zero => intro e h; exact absurd h (Nat.not_lt_zero _)
  | succ fuel ih =>
    intro e h
    rw [Engine.runLoop]
    simp only [runLoopFuel]
    cases ht : e.tasks with
    | nil => rfl
    | cons t rest =>
      simp only []
      by_cases hs : e.steps < STEP_LIMIT
      · simp only [hs, if_pos, dif_pos]
        cases hp : pollTask e.state t.fut with
        | error err => rfl
        | ok p =>
          rcases p with ⟨s', tk⟩
          cases tk with
          | none =>
            apply ih
            simp only [ht, List.length_cons] at h ⊢
            omega
          | some t' =>
            apply ih
            simp only [ht, List.length_cons, List.length_append] at h ⊢
            simp only [List.length_cons, List.length_nil]
            omega
      · simp only [hs, if_neg, dif_neg, not_false_iff]

/-- Evaluation form of `Engine.runLoop`: fuel `queue length + 33` always
suffices. -/
theorem runLoop_eq_fuel (e : Engine) :
    e.runLoop = runLoopFuel (e.tasks.length + STEP_LIMIT + 1) e := by
  have hsub := Nat.sub_le STEP_LIMIT e.steps
  exact (runLoopFuel_eq _ e (by omega)).symm

theorem step_eq_stepFuel (e : Engine) : e.step = e.stepFuel := by
  rw [Engine.step, Engine.stepFuel, runLoop_eq_fuel]

theorem runLoop_nil (e : Engine) (h : e.tasks = []) : e.runLoop = .ok e := by
  rw [Engine.runLoop]
  split <;> simp_all

theorem runLoop_limit (e : Engine) (h32 : STEP_LIMIT ≤ e.steps) (hne : e.tasks ≠ []) :
    e.runLoop = .error .stepLimit := by
  rw [Engine.runLoop]
  split
  · simp_all
  · rw [dif_neg (by omega)]

theorem wbCycle_eq (e : Engine) : wbCycle e = wbCycleFuel e := by
  rw [wbCycle, wbCycleFuel, step_eq_stepFuel]

theorem wbIter_eq (n : Nat) : ∀ e, wbIter n e = wbIterFuel n e := by
  induction n with
  | zero => intro e; rfl
  | succ n ih =>
    intro e
    simp only [wbIter, wbIterFuel, wbCycle_eq]
    cases wbCycleFuel e with
    | error err => rfl
    | ok e' => exact ih e'

theorem stateEvolve_refl (s : EngineState) : StateEvolve s s :=
  ⟨fun _ _ h => h, fun _ => Or.inl rfl, fun _ => rfl⟩

theorem stateEvolve_trans {s₁ s₂ s₃ : EngineState}
    (h₁ : StateEvolve s₁ s₂) (h₂ : StateEvolve s₂ s₃) : StateEvolve s₁ s₃ := by
  obtain ⟨m₁, t₁, r₁⟩ := h₁
  obtain ⟨m₂, t₂, r₂⟩ := h₂
  refine ⟨fun w v h => m₂ w v (m₁ w v h), fun w => ?_, fun r => (r₂ r).trans (r₁ r)⟩
  rcases t₂ w with h3 | ⟨h3, v, h4⟩
  · rcases t₁ w with h5 | ⟨h5, v', h6⟩
    · exact Or.inl (h3.trans h5)
    · exact Or.inr ⟨h5, v', h3.trans h6⟩
  · rcases t₁ w with h5 | ⟨h5, v', h6⟩
    · exact Or.inr ⟨h5.symm.trans h3, v, h4⟩
    · rw [h6] at h3
      cases h3

theorem readAgree_of_evolve {s F : EngineState} (h : StateEvolve s F) : ReadAgree s F :=
  ⟨h.1, fun r => (h.2.2 r).symm⟩

theorem pollTask_state : ∀ (τ : Task) (s : EngineState) (out : EngineState × Option Task),
    pollTask s τ = .ok out → StateEvolve s out.1 := by
  intro τ
  induction τ with
  | done =>
    intro s out h
    simp only [pollTask] at h
    cases h
    exact stateEvolve_refl s
  | sampleWire w k ih =>
    intro s out h
    simp only [pollTask] at h
    cases hr : read_wire s.wires w with
    | error e => rw [hr] at h; cases h
    | ok cell =>
      rw [hr] at h
      cases cell with
      | none =>
        cases h
        exact stateEvolve_refl s
      | some v => exact ih v s out h
  | driveWire w v k ih =>
    intro s out h
    simp only [pollTask] at h
    cases hw : write_wire s.wires w v with
    | error e => rw [hw] at h; cases h
    | ok wm =>
      rw [hw] at h
      have hchar : s.wires.data w = some none ∧
          wm = { s.wires with data := Function.update s.wires.data w (some (some v)) } := by
        unfold write_wire at hw
        cases hc : s.wires.data w with
        | none => rw [hc] at hw; cases hw
        | some cell =>
          cases cell with
          | none => rw [hc] at hw; cases hw; exact ⟨rfl, rfl⟩
          | some p => rw [hc] at hw; cases hw
      obtain ⟨hcell, rfl⟩ := hchar
      refine stateEvolve_trans ?_ (ih _ out h)
      refine ⟨?_, ?_, fun r => rfl⟩
      · intro w' v' hwv
        by_cases hww : w' = w
        · subst hww
          rw [hcell] at hwv
          cases hwv
        · show Function.update s.wires.data w (some (some v)) w' = some (some v')
          rw [Function.update_noteq hww]
          exact hwv
      · intro w'
        by_cases hww : w' = w
        · subst hww
          refine Or.inr ⟨hcell, v, ?_⟩
          show Function.update s.wires.data w' (some (some v)) w' = some (some v)
          rw [Function.update_same]
        · refine Or.inl ?_
          show Function.update s.wires.data w (some (some v)) w' = s.wires.data w'
          rw [Function.update_noteq hww]
  | assignW src tgt k ih =>
    intro s out h
    simp only [pollTask] at h
    cases hr : read_wire s.wires src with
    | error e => rw [hr] at h; cases h
    | ok cell =>
      rw [hr] at h
      cases cell with
      | none =>
        cases h
        exact stateEvolve_refl s
      | some v =>
        have h2 : (match write_wire s.wires tgt v with
            | Except.error e => Except.error e
            | Except.ok wm => pollTask { s with wires := wm } k) = Except.ok out := h
        clear h
        cases hw : write_wire s.wires tgt v with
        | error e => rw [hw] at h2; cases h2
        | ok wm =>
          rw [hw] at h2
          have hchar : s.wires.data tgt = some none ∧
              wm = { s.wires with data := Function.update s.wires.data tgt (some (some v)) } := by
            unfold write_wire at hw
            cases hc : s.wires.data tgt with
            | none => rw [hc] at hw; cases hw
            | some cell =>
              cases cell with
              | none => rw [hc] at hw; cases hw; exact ⟨rfl, rfl⟩
              | some p => rw [hc] at hw; cases hw
          obtain ⟨hcell, rfl⟩ := hchar
          refine stateEvolve_trans ?_ (ih _ out h2)
          refine ⟨?_, ?_, fun r => rfl⟩
          · intro w' v' hwv
            by_cases hww : w' = tgt
            · subst hww
              rw [hcell] at hwv
              cases hwv
            · show Function.update s.wires.data tgt (some (some v)) w' = some (some v')
              rw [Function.update_noteq hww]
              exact hwv
          · intro w'
            by_cases hww : w' = tgt
            · subst hww
              refine Or.inr ⟨hcell, v, ?_⟩
              show Function.update s.wires.data w' (some (some v)) w' = some (some v)
              rw [Function.update_same]
            · refine Or.inl ?_
              show Function.update s.wires.data tgt (some (some v)) w' = s.wires.data w'
              rw [Function.update_noteq hww]
  | sampleReg r k ih =>
    intro s out h
    simp only [pollTask] at h
    cases hr : s.registers.peek_register r with
    | error e => rw [hr] at h; cases h
    | ok v =>
      rw [hr] at h
      exact ih v s out h
  | driveReg r v k ih =>
    intro s out h
    simp only [pollTask] at h
    cases hr : s.registers.stage r v with
    | error e => rw [hr] at h; cases h
    | ok rm =>
      rw [hr] at h
      have hchar : ∃ st, s.registers.data r = some st ∧
          rm = { s.registers with
            data := Function.update s.registers.data r (some { st with next := some v }) } := by
        unfold RegisterMap.stage at hr
        cases hc : s.registers.data r with
        | none => rw [hc] at hr; cases hr
        | some st => rw [hc] at hr; cases hr; exact ⟨st, rfl, rfl⟩
      obtain ⟨st, hcell, rfl⟩ := hchar
      refine stateEvolve_trans ?_ (ih _ out h)
      refine ⟨fun w' v' hwv => hwv, fun w' => Or.inl rfl, fun r' => ?_⟩
      by_cases hrr : r' = r
      · subst hrr
        show (Function.update s.registers.data r' (some { st with next := some v }) r').map regSig
          = (s.registers.data r').map regSig
        rw [Function.update_same, hcell]
        rfl
      · show (Function.update s.registers.data r (some { st with next := some v }) r').map regSig
          = (s.registers.data r').map regSig
        rw [Function.update_noteq hrr]

theorem runLoop_mono_aux : ∀ (n : Nat) (e e' : Engine),
    (STEP_LIMIT - e.steps) + e.tasks.length ≤ n → e.runLoop = .ok e' →
    StateEvolve e.state e'.state := by
  intro n
  induction n with
  | zero =>
    intro e e' hn h
    have htasks : e.tasks = [] := by
      cases ht : e.tasks with
      | nil => rfl
      | cons t rest =>
        exfalso
        rw [ht] at hn
        simp [List.length_cons] at hn
    rw [runLoop_nil e htasks] at h
    cases h
    exact stateEvolve_refl _
  | succ n ih =>
    intro e e' hn h
    rw [Engine.runLoop] at h
    split at h
    · next heq =>
      cases h
      exact stateEvolve_refl _
    · next t rest heq =>
      by_cases hs : e.steps < STEP_LIMIT
      · rw [dif_pos hs] at h
        cases hp : pollTask e.state t.fut with
        | error err =>
          rw [hp] at h
          cases h
        | ok p =>
          rcases p with ⟨s', tk⟩
          rw [hp] at h
          have hev : StateEvolve e.state s' := pollTask_state t.fut e.state (s', tk) hp
          cases tk with
          | none =>
            refine stateEvolve_trans hev
              (ih { tasks := rest, state := s', steps := e.steps, cycles := e.cycles } e' ?_ h)
            show (STEP_LIMIT - e.steps) + rest.length ≤ n
            rw [heq] at hn
            simp only [List.length_cons] at hn
            omega
          | some t' =>
            refine stateEvolve_trans hev
              (ih ⟨rest ++ [{ t with fut := t' }], s', e.steps + 1, e.cycles⟩ e' ?_ h)
            show (STEP_LIMIT - (e.steps + 1)) + (rest ++ [{ t with fut := t' }]).length ≤ n
            rw [heq] at hn
            simp only [List.length_cons, List.length_append, List.length_nil] at hn ⊢
            omega
      · rw [dif_neg hs] at h
        cases h

theorem runLoop_mono (e e' : Engine) (h : e.runLoop = .ok e') :
    StateEvolve e.state e'.state :=
  runLoop_mono_aux ((STEP_LIMIT - e.steps) + e.tasks.length) e e' (le_refl _) h

theorem readVal_unique {F : EngineState} {rd : SRead} {v₁ v₂ : Nat}
    (h₁ : readVal F rd v₁) (h₂ : readVal F rd v₂) : v₁ = v₂ := by
  cases rd with
  | wireR w =>
    simp only [readVal] at h₁ h₂
    rw [h₁] at h₂
    exact Option.some.inj (Option.some.inj h₂)
  | regR r =>
    obtain ⟨st₁, hc₁, hd₁⟩ := h₁
    obtain ⟨st₂, hc₂, hd₂⟩ := h₂
    rw [hc₁] at hc₂
    injection hc₂ with h3
    subst h3
    rw [← hd₁, ← hd₂]

theorem readValsF_unique {F : EngineState} :
    ∀ {rs : List SRead} {vals₁ vals₂ : List Nat},
    readValsF F rs vals₁ → readValsF F rs vals₂ → vals₁ = vals₂ := by
  intro rs vals₁ vals₂ h₁
  induction h₁ generalizing vals₂ with
  | nil =>
    intro h₂
    cases h₂
    rfl
  | cons hv hrest ih =>
    intro h₂
    cases h₂ with
    | cons hv₂ hrest₂ => rw [readVal_unique hv hv₂, ih hrest₂]

theorem readValsF_transport {F₁ F₂ : EngineState}
    (hw : ∀ w, F₁.wires.data w = F₂.wires.data w)
    (hr : ∀ r, (F₁.registers.data r).map regSig = (F₂.registers.data r).map regSig) :
    ∀ {rs : List SRead} {vals : List Nat}, readValsF F₁ rs vals → readValsF F₂ rs vals := by
  intro rs vals h
  induction h with
  | nil => exact List.Forall₂.nil
  | @cons rd v l₁ l₂ hv hrest ih =>
    refine List.Forall₂.cons ?_ ih
    cases rd with
    | wireR w =>
      simp only [readVal] at hv ⊢
      rw [← hw w]
      exact hv
    | regR r =>
      obtain ⟨st, hc, hd⟩ := hv
      have hg := hr r
      rw [hc] at hg
      cases hF : F₂.registers.data r with
      | none => rw [hF] at hg; cases hg
      | some st₂ =>
        rw [hF] at hg
        injection hg with h3
        refine ⟨st₂, hF, ?_⟩
        have h4 : st.data = st₂.data := congrArg Prod.fst h3
        rw [← h4, hd]

theorem readVal_reg_of_agree {s F : EngineState} {r : Nat} {st : RegisterState}
    (hag : ReadAgree s F) (hc : s.registers.data r = some st) :
    readVal F (.regR r) st.data := by
  have h := hag.2 r
  rw [hc] at h
  cases hF : F.registers.data r with
  | none => rw [hF] at h; cases h
  | some st₂ =>
    rw [hF] at h
    injection h with h3
    exact ⟨st₂, hF, (congrArg Prod.fst h3).symm⟩

theorem poll_driveSeq : ∀ (ds : List SWrite) (s : EngineState) (vals : List Nat)
    (out : EngineState × Option Task),
    (wRegTargets ds).Nodup →
    pollTask s (driveSeq vals ds) = .ok out →
    out.2 = none ∧
    (∀ w f, SWrite.wireW w f ∈ ds → out.1.wires.data w = some (some (f vals))) ∧
    (∀ r f, SWrite.regW r f ∈ ds → regNext out.1 r = some (some (f vals))) ∧
    (∀ w, out.1.wires.data w = s.wires.data w ∨
      ∃ f, SWrite.wireW w f ∈ ds ∧ out.1.wires.data w = some (some (f vals))) ∧
    (∀ r, r ∉ wRegTargets ds → out.1.registers.data r = s.registers.data r) := by
  intro ds
  induction ds with
  | nil =>
    intro s vals out hnd h
    simp only [driveSeq, pollTask] at h
    cases h
    exact ⟨rfl, fun w f hm => absurd hm (List.not_mem_nil _),
      fun r f hm => absurd hm (List.not_mem_nil _), fun w => Or.inl rfl, fun r _ => rfl⟩
  | cons d ds ih =>
    intro s vals out hnd h
    cases d with
    | wireW w f =>
      simp only [driveSeq, pollTask] at h
      cases hw : write_wire s.wires w (f vals) with
      | error e => rw [hw] at h; cases h
      | ok wm =>
        rw [hw] at h
        have hchar : s.wires.data w = some none ∧
            wm = { s.wires with
              data := Function.update s.wires.data w (some (some (f vals))) } := by
          unfold write_wire at hw
          cases hc : s.wires.data w with
          | none => rw [hc] at hw; cases hw
          | some cell =>
            cases cell with
            | none => rw [hc] at hw; cases hw; exact ⟨rfl, rfl⟩
            | some p => rw [hc] at hw; cases hw
        obtain ⟨hcell, rfl⟩ := hchar
        have hnd' : (wRegTargets ds).Nodup := hnd
        obtain ⟨ho, hwires, hregs, htri, hregu⟩ := ih _ vals out hnd' h
        refine ⟨ho, ?_, ?_, ?_, ?_⟩
        · intro w' f' hm
          rcases List.mem_cons.mp hm with heq | hm2
          · injection heq with h1 h2
            subst h1
            subst h2
            have hev := pollTask_state (driveSeq vals ds) _ out h
            refine hev.1 w' (f' vals) ?_
            show Function.update s.wires.data w' (some (some (f' vals))) w' = some (some (f' vals))
            rw [Function.update_same]
          · exact hwires w' f' hm2
        · intro r f' hm
          rcases List.mem_cons.mp hm with heq | hm2
          · exact SWrite.noConfusion heq
          · exact hregs r f' hm2
        · intro w'
          rcases htri w' with h1 | ⟨f', hf', h2⟩
          · by_cases hww : w' = w
            · subst hww
              refine Or.inr ⟨f, List.mem_cons_self _ _, ?_⟩
              rw [h1]
              show Function.update s.wires.data w' (some (some (f vals))) w' = some (some (f vals))
              rw [Function.update_same]
            · refine Or.inl ?_
              rw [h1]
              show Function.update s.wires.data w (some (some (f vals))) w' = s.wires.data w'
              rw [Function.update_noteq hww]
          · exact Or.inr ⟨f', List.mem_cons_of_mem _ hf', h2⟩
        · intro r hr
          exact hregu r hr
    | regW r f =>
      simp only [driveSeq, pollTask] at h
      cases hst : s.registers.stage r (f vals) with
      | error e => rw [hst] at h; cases h
      | ok rm =>
        rw [hst] at h
        have hchar : ∃ st, s.registers.data r = some st ∧
            rm = { s.registers with
              data := Function.update s.registers.data r
                (some { st with next := some (f vals) }) } := by
          unfold RegisterMap.stage at hst
          cases hc : s.registers.data r with
          | none => rw [hc] at hst; cases hst
          | some st => rw [hc] at hst; cases hst; exact ⟨st, rfl, rfl⟩
        obtain ⟨st, hcell, rfl⟩ := hchar
        have hnd2 : (r :: wRegTargets ds).Nodup := hnd
        have hnotin : r ∉ wRegTargets ds := (List.nodup_cons.mp hnd2).1
        have hnd' : (wRegTargets ds).Nodup := (List.nodup_cons.mp hnd2).2
        obtain ⟨ho, hwires, hregs, htri, hregu⟩ := ih _ vals out hnd' h
        refine ⟨ho, ?_, ?_, ?_, ?_⟩
        · intro w' f' hm
          rcases List.mem_cons.mp hm with heq | hm2
          · exact SWrite.noConfusion heq
          · exact hwires w' f' hm2
        · intro r' f' hm
          rcases List.mem_cons.mp hm with heq | hm2
          · injection heq with h1 h2
            subst h1
            subst h2
            simp only [regNext]
            rw [hregu r' hnotin]
            show (Function.update s.registers.data r'
              (some { st with next := some (f' vals) }) r').map _ = _
            rw [Function.update_same]
            rfl
          · exact hregs r' f' hm2
        · intro w'
          rcases htri w' with h1 | ⟨f', hf', h2⟩
          · exact Or.inl h1
          · exact Or.inr ⟨f', List.mem_cons_of_mem _ hf', h2⟩
        · intro r' hr'
          have hne : r' ≠ r := fun heq => hr' (by rw [heq]; exact List.mem_cons_self _ _)
          have hr2 : r' ∉ wRegTargets ds := fun hmem => hr' (List.mem_cons_of_mem _ hmem)
          rw [hregu r' hr2]
          show Function.update s.registers.data r
            (some { st with next := some (f vals) }) r' = s.registers.data r'
          rw [Function.update_noteq hne]

theorem poll_sampleSeq : ∀ (rs : List SRead) (s F : EngineState) (t : STask)
    (c : List SRead) (vs : List Nat) (out : EngineState × Option Task),
    t.reads = c ++ rs →
    readValsF F c vs →
    ReadAgree s F →
    (sRegTargets t).Nodup →
    pollTask s (sampleSeq rs (fun vs' => driveSeq (vs ++ vs') t.writes)) = .ok out →
    (out.2 = none →
      ∃ vals, readValsF F t.reads vals ∧
        (∀ w f, SWrite.wireW w f ∈ t.writes → out.1.wires.data w = some (some (f vals))) ∧
        (∀ r f, SWrite.regW r f ∈ t.writes → regNext out.1 r = some (some (f vals))) ∧
        (∀ w, out.1.wires.data w = s.wires.data w ∨
          ∃ f, SWrite.wireW w f ∈ t.writes ∧ out.1.wires.data w = some (some (f vals))) ∧
        (∀ r, r ∉ sRegTargets t → out.1.registers.data r = s.registers.data r)) ∧
    (∀ τ', out.2 = some τ' → out.1 = s ∧ Resid F t τ') := by
  intro rs
  induction rs with
  | nil =>
    intro s F t c vs out ht hv hag hnd h
    simp only [sampleSeq] at h
    rw [List.append_nil] at h
    obtain ⟨ho, hwires, hregs, htri, hregu⟩ := poll_driveSeq t.writes s vs out hnd h
    refine ⟨fun _ => ⟨vs, ?_, hwires, hregs, htri, hregu⟩, fun τ' hτ => ?_⟩
    · rw [ht, List.append_nil]
      exact hv
    · rw [ho] at hτ
      cases hτ
  | cons rd rs ih =>
    cases rd with
    | wireR w =>
      intro s F t c vs out ht hv hag hnd h
      simp only [sampleSeq, pollTask] at h
      cases hr : read_wire s.wires w with
      | error e => rw [hr] at h; cases h
      | ok cell =>
        rw [hr] at h
        cases cell with
        | none =>
          cases h
          refine ⟨fun hnone => Option.noConfusion hnone, fun τ' hτ => ⟨rfl, ?_⟩⟩
          injection hτ with hτ2
          subst hτ2
          exact ⟨c, .wireR w :: rs, vs, ht, hv, rfl⟩
        | some v =>
          have h2 : pollTask s (sampleSeq rs fun vs2 => driveSeq (vs ++ v :: vs2) t.writes)
              = .ok out := h
          clear h
          have hk : (fun vs2 => driveSeq (vs ++ v :: vs2) t.writes)
              = (fun vs2 => driveSeq ((vs ++ [v]) ++ vs2) t.writes) := by
            funext vs2
            congr 1
            simp
          rw [hk] at h2
          have hwv : s.wires.data w = some (some v) := by
            unfold read_wire WireMap.peek_wire at hr
            cases hc : s.wires.data w with
            | none => rw [hc] at hr; cases hr
            | some cell =>
              rw [hc] at hr
              injection hr with h'
              rw [h']
          have hvw : readVal F (.wireR w) v := hag.1 w v hwv
          have hvcons : readValsF F (c ++ [.wireR w]) (vs ++ [v]) :=
            List.rel_append hv (List.Forall₂.cons hvw List.Forall₂.nil)
          have ht' : t.reads = (c ++ [.wireR w]) ++ rs := by
            rw [ht]
            simp
          exact ih s F t (c ++ [.wireR w]) (vs ++ [v]) out ht' hvcons hag hnd h2
    | regR r =>
      intro s F t c vs out ht hv hag hnd h
      simp only [sampleSeq, pollTask] at h
      cases hr : s.registers.peek_register r with
      | error e => rw [hr] at h; cases h
      | ok v =>
        rw [hr] at h
        have h2 : pollTask s (sampleSeq rs fun vs2 => driveSeq (vs ++ v :: vs2) t.writes)
            = .ok out := h
        clear h
        have hk : (fun vs2 => driveSeq (vs ++ v :: vs2) t.writes)
            = (fun vs2 => driveSeq ((vs ++ [v]) ++ vs2) t.writes) := by
          funext vs2
          congr 1
          simp
        rw [hk] at h2
        have hst : ∃ st, s.registers.data r = some st ∧ st.data = v := by
          unfold RegisterMap.peek_register at hr
          cases hc : s.registers.data r with
          | none => rw [hc] at hr; cases hr
          | some st =>
            rw [hc] at hr
            injection hr with h'
            exact ⟨st, rfl, h'⟩
        obtain ⟨st, hcell, hdata⟩ := hst
        have hvr : readVal F (.regR r) v := by
          rw [← hdata]
          exact readVal_reg_of_agree hag hcell
        have hvcons : readValsF F (c ++ [.regR r]) (vs ++ [v]) :=
          List.rel_append hv (List.Forall₂.cons hvr List.Forall₂.nil)
        have ht' : t.reads = (c ++ [.regR r]) ++ rs := by
          rw [ht]
          simp
        exact ih s F t (c ++ [.regR r]) (vs ++ [v]) out ht' hvcons hag hnd h2

theorem mem_wRegTargets_of {ds : List SWrite} {r : Nat} {f : List Nat → Nat}
    (h : SWrite.regW r f ∈ ds) : r ∈ wRegTargets ds := by
  simp only [wRegTargets, List.mem_filterMap]
  exact ⟨_, h, rfl⟩

theorem allRegTargets_cons (t : STask) (TS : List STask) :
    allRegTargets (t :: TS) = sRegTargets t ++ allRegTargets TS := by
  simp [allRegTargets]

theorem allRegTargets_rotate (t : STask) (TS : List STask) :
    (allRegTargets (t :: TS)).Perm (allRegTargets (TS ++ [t])) := by
  simp only [allRegTargets, List.map_append, List.map_cons, List.flatten_append,
    List.flatten_cons, List.map_nil, List.flatten_nil, List.append_nil]
  exact List.perm_append_comm

theorem srun_inv : ∀ (n : Nat) (e e' : Engine) (TS : List STask),
    (STEP_LIMIT - e.steps) + e.tasks.length ≤ n →
    e.runLoop = .ok e' →
    List.Forall₂ (fun et t => Resid e'.state t et.fut) e.tasks TS →
    (allRegTargets TS).Nodup →
    (∀ t ∈ TS, EqnsHold e'.state t) ∧
    (∀ r, r ∉ allRegTargets TS → regNext e'.state r = regNext e.state r) := by
  intro n
  induction n with
  | zero =>
    intro e e' TS hn h hQ hnd
    have htasks : e.tasks = [] := by
      cases ht : e.tasks with
      | nil => rfl
      | cons t rest =>
        exfalso
        rw [ht] at hn
        simp [List.length_cons] at hn
    rw [runLoop_nil e htasks] at h
    cases h
    rw [htasks] at hQ
    cases hQ
    exact ⟨fun t ht => absurd ht (List.not_mem_nil _), fun r _ => rfl⟩
  | succ n ih =>
    intro e e' TS hn h hQ hnd
    rw [Engine.runLoop] at h
    split at h
    · next heq =>
      cases h
      rw [heq] at hQ
      cases hQ
      exact ⟨fun t ht => absurd ht (List.not_mem_nil _), fun r _ => rfl⟩
    · next tk rest heq =>
      rw [heq] at hQ
      cases TS with
      | nil => cases hQ
      | cons t₀ TS' =>
        cases hQ with
        | cons hres hQrest =>
          have hall : allRegTargets (t₀ :: TS') = sRegTargets t₀ ++ allRegTargets TS' := allRegTargets_cons t₀ TS'
          have hnd2 : (sRegTargets t₀ ++ allRegTargets TS').Nodup := by rw [← hall]; exact hnd
          have hnd_head : (sRegTargets t₀).Nodup := (List.nodup_append.mp hnd2).1
          have hnd_tail : (allRegTargets TS').Nodup := (List.nodup_append.mp hnd2).2.1
          have hdisj : (sRegTargets t₀).Disjoint (allRegTargets TS') := (List.nodup_append.mp hnd2).2.2
          by_cases hs : e.steps < STEP_LIMIT
          · rw [dif_pos hs] at h
            cases hp : pollTask e.state tk.fut with
            | error err =>
              rw [hp] at h
              cases h
            | ok p =>
              rcases p with ⟨s', res⟩
              rw [hp] at h
              cases res with
              | none =>
                obtain ⟨c, rs, vs, hreads, hcap, hfut⟩ := hres
                rw [hfut] at hp
                have hevt : StateEvolve s' e'.state :=
                  runLoop_mono ⟨rest, s', e.steps, e.cycles⟩ e' h
                have hag : ReadAgree e.state e'.state :=
                  readAgree_of_evolve (stateEvolve_trans
                    (pollTask_state _ e.state (s', none) hp) hevt)
                obtain ⟨hcomp, _⟩ := poll_sampleSeq rs e.state e'.state t₀ c vs (s', none)
                  hreads hcap hag hnd_head hp
                obtain ⟨vals, hvals, hwires, hregs, htri, hregu⟩ := hcomp rfl
                have ihres := ih ⟨rest, s', e.steps, e.cycles⟩ e' TS' (by
                  show (STEP_LIMIT - e.steps) + rest.length ≤ n
                  rw [heq] at hn
                  simp only [List.length_cons] at hn
                  omega) h hQrest hnd_tail
                refine ⟨?_, ?_⟩
                · intro t htm
                  rcases List.mem_cons.mp htm with heqt | htm2
                  · subst heqt
                    refine ⟨vals, hvals, ?_, ?_⟩
                    · intro w f hm
                      exact hevt.1 w (f vals) (hwires w f hm)
                    · intro r f hm
                      have hrtar : r ∈ sRegTargets t := mem_wRegTargets_of hm
                      have hnot : r ∉ allRegTargets TS' := fun hmem => hdisj hrtar hmem
                      have hkeep := ihres.2 r hnot
                      rw [hkeep]
                      exact hregs r f hm
                  · exact ihres.1 t htm2
                · intro r hnotin
                  rw [hall] at hnotin
                  have h1 : r ∉ sRegTargets t₀ :=
                    fun hm => hnotin (List.mem_append.mpr (Or.inl hm))
                  have h2 : r ∉ allRegTargets TS' :=
                    fun hm => hnotin (List.mem_append.mpr (Or.inr hm))
                  rw [ihres.2 r h2]
                  simp only [regNext]
                  rw [hregu r h1]
              | some τ' =>
                obtain ⟨c, rs, vs, hreads, hcap, hfut⟩ := hres
                rw [hfut] at hp
                have hevt : StateEvolve s' e'.state := by
                  have := runLoop_mono ⟨rest ++ [{ tk with fut := τ' }], s',
                    e.steps + 1, e.cycles⟩ e' h
                  exact this
                have hag : ReadAgree e.state e'.state :=
                  readAgree_of_evolve (stateEvolve_trans
                    (pollTask_state _ e.state (s', some τ') hp) hevt)
                obtain ⟨_, hpend⟩ := poll_sampleSeq rs e.state e'.state t₀ c vs (s', some τ')
                  hreads hcap hag hnd_head hp
                obtain ⟨hs', hres'⟩ := hpend τ' rfl
                subst hs'
                have hndrot : (allRegTargets (TS' ++ [t₀])).Nodup :=
                  (allRegTargets_rotate t₀ TS').nodup hnd
                have ihres := ih ⟨rest ++ [{ tk with fut := τ' }], e.state,
                    e.steps + 1, e.cycles⟩ e' (TS' ++ [t₀]) (by
                  show (STEP_LIMIT - (e.steps + 1)) + (rest ++ [{ tk with fut := τ' }]).length ≤ n
                  rw [heq] at hn
                  simp only [List.length_cons, List.length_append, List.length_nil] at hn ⊢
                  omega) h (List.rel_append hQrest
                    (List.Forall₂.cons hres' List.Forall₂.nil)) hndrot
                refine ⟨?_, ?_⟩
                · intro t htm
                  rcases List.mem_cons.mp htm with heqt | htm2
                  · subst heqt
                    exact ihres.1 t (List.mem_append.mpr (Or.inr (List.mem_singleton.mpr rfl)))
                  · exact ihres.1 t (List.mem_append.mpr (Or.inl htm2))
                · intro r hnotin
                  have hnotin2 : r ∉ allRegTargets (TS' ++ [t₀]) :=
                    fun hm => hnotin (((allRegTargets_rotate t₀ TS').mem_iff).mpr hm)
                  exact ihres.2 r hnotin2
          · rw [dif_neg hs] at h
            cases h

theorem scross_inv : ∀ (n : Nat) (e e' : Engine) (F₂ : EngineState) (ts TS : List STask),
    (STEP_LIMIT - e.steps) + e.tasks.length ≤ n →
    e.runLoop = .ok e' →
    List.Forall₂ (fun et t => Resid F₂ t et.fut) e.tasks TS →
    (∀ t ∈ TS, t ∈ ts) →
    (∀ t ∈ ts, EqnsHold F₂ t) →
    (∀ t ∈ ts, (sRegTargets t).Nodup) →
    ReadAgree e.state F₂ →
    ReadAgree e'.state F₂ := by
  intro n
  induction n with
  | zero =>
    intro e e' F₂ ts TS hn h hQ hsub heqns hndall hag
    have htasks : e.tasks = [] := by
      cases ht : e.tasks with
      | nil => rfl
      | cons t rest =>
        exfalso
        rw [ht] at hn
        simp [List.length_cons] at hn
    rw [runLoop_nil e htasks] at h
    cases h
    exact hag
  | succ n ih =>
    intro e e' F₂ ts TS hn h hQ hsub heqns hndall hag
    rw [Engine.runLoop] at h
    split at h
    · next heq =>
      cases h
      exact hag
    · next tk rest heq =>
      rw [heq] at hQ
      cases TS with
      | nil => cases hQ
      | cons t₀ TS' =>
        cases hQ with
        | cons hres hQrest =>
          have hmem₀ : t₀ ∈ ts := hsub t₀ (List.mem_cons_self _ _)
          have hnd_head : (sRegTargets t₀).Nodup := hndall t₀ hmem₀
          by_cases hs : e.steps < STEP_LIMIT
          · rw [dif_pos hs] at h
            cases hp : pollTask e.state tk.fut with
            | error err =>
              rw [hp] at h
              cases h
            | ok p =>
              rcases p with ⟨s', res⟩
              rw [hp] at h
              obtain ⟨c, rs, vs, hreads, hcap, hfut⟩ := hres
              rw [hfut] at hp
              obtain ⟨hcomp, hpend⟩ := poll_sampleSeq rs e.state F₂ t₀ c vs (s', res)
                hreads hcap hag hnd_head hp
              cases res with
              | none =>
                obtain ⟨vals, hvals, hwires, hregs, htri, hregu⟩ := hcomp rfl
                obtain ⟨vals₂, hvals₂, hwires₂, hregs₂⟩ := heqns t₀ hmem₀
                have hveq : vals = vals₂ := readValsF_unique hvals hvals₂
                have hag' : ReadAgree s' F₂ := by
                  constructor
                  · intro w v hw
                    rcases htri w with h1 | ⟨f, hf, h2⟩
                    · exact hag.1 w v (h1 ▸ hw)
                    · have hv2 : f vals = v := by
                        rw [h2] at hw
                        exact Option.some.inj (Option.some.inj hw)
                      have hF := hwires₂ w f hf
                      rw [← hveq, hv2] at hF
                      exact hF
                  · intro r
                    have hev := pollTask_state _ e.state (s', none) hp
                    exact (hev.2.2 r).trans (hag.2 r)
                exact ih ⟨rest, s', e.steps, e.cycles⟩ e' F₂ ts TS' (by
                  show (STEP_LIMIT - e.steps) + rest.length ≤ n
                  rw [heq] at hn
                  simp only [List.length_cons] at hn
                  omega) h hQrest (fun t ht => hsub t (List.mem_cons_of_mem _ ht))
                    heqns hndall hag'
              | some τ' =>
                obtain ⟨hs', hres'⟩ := hpend τ' rfl
                subst hs'
                exact ih ⟨rest ++ [{ tk with fut := τ' }], e.state, e.steps + 1, e.cycles⟩
                  e' F₂ ts (TS' ++ [t₀]) (by
                  show (STEP_LIMIT - (e.steps + 1))
                    + (rest ++ [{ tk with fut := τ' }]).length ≤ n
                  rw [heq] at hn
                  simp only [List.length_cons, List.length_append, List.length_nil] at hn ⊢
                  omega) h (List.rel_append hQrest (List.Forall₂.cons hres' List.Forall₂.nil))
                  (by
                    intro t ht
                    rcases List.mem_append.mp ht with h1 | h1
                    · exact hsub t (List.mem_cons_of_mem _ h1)
                    · rw [List.mem_singleton.mp h1]
                      exact hmem₀)
                  heqns hndall hag
          · rw [dif_neg hs] at h
            cases h

theorem mem_allRegTargets {r : Nat} {TS : List STask} :
    r ∈ allRegTargets TS ↔ ∃ t ∈ TS, r ∈ sRegTargets t := by
  simp only [allRegTargets, List.mem_flatten, List.mem_map]
  constructor
  · rintro ⟨l, ⟨t, htm, rfl⟩, hr⟩
    exact ⟨t, htm, hr⟩
  · rintro ⟨t, htm, hr⟩
    exact ⟨sRegTargets t, ⟨t, htm, rfl⟩, hr⟩

theorem exists_of_mem_wRegTargets {ds : List SWrite} {r : Nat}
    (h : r ∈ wRegTargets ds) : ∃ f, SWrite.regW r f ∈ ds := by
  simp only [wRegTargets, List.mem_filterMap] at h
  obtain ⟨d, hd, hm⟩ := h
  cases d with
  | wireW w f => cases hm
  | regW r' f =>
    injection hm with hm2
    rw [← hm2]
    exact ⟨f, hd⟩

theorem nodup_sRegTargets_of_mem : ∀ {ts : List STask} {t : STask},
    (allRegTargets ts).Nodup → t ∈ ts → (sRegTargets t).Nodup := by
  intro ts
  induction ts with
  | nil => intro t _ ht; exact absurd ht (List.not_mem_nil _)
  | cons t' ts ih =>
    intro t hnd ht
    rw [allRegTargets_cons] at hnd
    rcases List.mem_cons.mp ht with heqt | ht2
    · rw [heqt]
      exact (List.nodup_append.mp hnd).1
    · exact ih (List.nodup_append.mp hnd).2.1 ht2

theorem allRegTargets_perm : ∀ {ts₁ ts₂ : List STask}, ts₁.Perm ts₂ →
    (allRegTargets ts₁).Perm (allRegTargets ts₂) := by
  intro ts₁ ts₂ h
  induction h with
  | nil => exact List.Perm.refl _
  | cons t h ih =>
    rw [allRegTargets_cons, allRegTargets_cons]
    exact ih.append_left _
  | swap t₁ t₂ l =>
    rw [allRegTargets_cons, allRegTargets_cons, allRegTargets_cons, allRegTargets_cons,
      ← List.append_assoc, ← List.append_assoc]
    exact List.perm_append_comm.append_right _
  | trans h₁ h₂ ih₁ ih₂ => exact ih₁.trans ih₂

theorem regOpt_ext {o₁ o₂ : Option RegisterState}
    (h1 : o₁.map regSig = o₂.map regSig)
    (h2 : o₁.map (fun st => st.next) = o₂.map (fun st => st.next)) : o₁ = o₂ := by
  cases o₁ with
  | none =>
    cases o₂ with
    | none => rfl
    | some st₂ => cases h1
  | some st₁ =>
    cases o₂ with
    | none => cases h1
    | some st₂ =>
      injection h1 with h1'
      injection h2 with h2'
      have hd : st₁.data = st₂.data := congrArg Prod.fst h1'
      have hr : st₁.reset_data = st₂.reset_data := congrArg Prod.snd h1'
      have h2b : st₁.next = st₂.next := h2'
      have hst : st₁ = st₂ := by
        calc st₁ = ⟨st₁.data, st₁.reset_data, st₁.next⟩ := rfl
          _ = ⟨st₂.data, st₂.reset_data, st₂.next⟩ := by rw [hd, hr, h2b]
          _ = st₂ := rfl
      rw [hst]

theorem initial_resid (F : EngineState) (ts : List STask) :
    List.Forall₂ (fun (et : EngineTask) (t : STask) => Resid F t et.fut)
      (ts.map fun t => (⟨"module", t.toTask⟩ : EngineTask)) ts := by
  induction ts with
  | nil => exact List.Forall₂.nil
  | cons t ts ih =>
    exact List.Forall₂.cons ⟨[], t.reads, [], rfl, List.Forall₂.nil, rfl⟩ ih

/-! ## C1 -/

/-- C1: for a wire whose cell is empty, the first drive succeeds and the cell
now holds the driven value; any second drive to the same wire (before the
cycle boundary clears it) is the fatal `wireConflict` error, both at the map
level and when the drive is polled as a task primitive. -/
theorem wire_single_driver (m : WireMap) (w v : Nat) (h : m.data w = some none) :
    ∃ m', write_wire m w v = .ok m' ∧ m'.data w = some (some v) ∧
      (∀ v₂, write_wire m' w v₂ = .error (.wireConflict w v v₂)) ∧
      (∀ (regs : RegisterMap) (v₂ : Nat) (k : Task),
        pollTask ⟨m', regs⟩ (.driveWire w v₂ k) = .error (.wireConflict w v v₂)) := by
  refine ⟨{ m with data := Function.update m.data w (some (some v)) }, ?_, ?_, ?_, ?_⟩
  · simp [write_wire, h]
  · simp [Function.update_same]
  · intro v₂
    simp [write_wire, Function.update_same]
  · intro regs v₂ k
    simp [pollTask, write_wire, Function.update_same]

theorem wire_single_driver_witness :
    ∃ m', write_wire oneWire 1 5 = .ok m' ∧ m'.data 1 = some (some 5) ∧
      (∀ v₂, write_wire m' 1 v₂ = .error (.wireConflict 1 5 v₂)) ∧
      (∀ (regs : RegisterMap) (v₂ : Nat) (k : Task),
        pollTask ⟨m', regs⟩ (.driveWire 1 v₂ k) = .error (.wireConflict 1 5 v₂)) :=
  wire_single_driver oneWire 1 5 (by simp [oneWire])

/-! ## C2 -/

/-- C2 counterexample: the register with id 1 already has pending slot
`Some 1`, yet polling `drive_register` with value 2 succeeds (no
`RegisterConflict` exists anywhere in the code) and silently overwrites the
pending slot with 2 — last-writer-wins, contradicting the claim that a second
drive is fatal. -/
theorem register_conflict_cex :
    pollTask ⟨WireMap.new, onePendingReg⟩ (.driveReg 1 2 .done) =
      .ok (⟨WireMap.new, { onePendingReg with
        data := Function.update onePendingReg.data 1 (some ⟨0, 0, some 2⟩) }⟩, none) := by
  rfl

/-- C2 (amended): `drive_register` on an allocated register always succeeds,
whatever the pending slot holds, and overwrites the pending slot with the new
value (last writer wins); the rest of the map is untouched.  The code has no
register-conflict error. -/
theorem register_drive_last_writer_wins (m : RegisterMap) (r v : Nat)
    (s : RegisterState) (h : m.data r = some s) :
    ∃ m', m.stage r v = .ok m' ∧ m'.data r = some { s with next := some v } ∧
      ∀ r', r' ≠ r → m'.data r' = m.data r' := by
  refine ⟨{ m with data := Function.update m.data r (some { s with next := some v }) }, ?_, ?_, ?_⟩
  · simp [RegisterMap.stage, h]
  · simp [Function.update_same]
  · intro r' hr'
    simp [Function.update_noteq hr']

theorem register_drive_last_writer_wins_witness :
    ∃ m', onePendingReg.stage 1 2 = .ok m' ∧ m'.data 1 = some ⟨0, 0, some 2⟩ ∧
      ∀ r', r' ≠ 1 → m'.data r' = onePendingReg.data r' :=
  register_drive_last_writer_wins onePendingReg 1 2 ⟨0, 0, some 1⟩ (by simp [onePendingReg])

/-! ## C10 -/

/-- C10: committing registers twice in a row is the same as committing once:
the first `update` moves every `Some` pending value into `data` and clears
`next`, so the second `update` finds every pending slot empty and changes
nothing. -/
theorem register_update_idempotent (m : RegisterMap) : m.update.update = m.update := by
  unfold RegisterMap.update
  simp only []
  congr 1
  funext r
  cases hm : m.data r with
  | none => rfl
  | some s =>
    cases hn : s.next with
    | none => simp [RegisterState.update, hn]
    | some d => simp [RegisterState.update, hn]

/-! ## C9 -/

/-- C9: `step()` never touches a register's reset value: when the cycle's
tasks have drained (`runLoop` returned) and a register's pending slot is
`None`, the commit inside `step()` leaves its current value and pending slot
exactly as they were — even when the current value differs from the reset
value. -/
theorem step_no_reset (e e₁ : Engine) (r c rst : Nat)
    (hrun : e.runLoop = .ok e₁)
    (hreg : e₁.state.registers.data r = some ⟨c, rst, none⟩) :
    ∃ e', e.step = .ok e' ∧ e'.state.registers.data r = some ⟨c, rst, none⟩ ∧
      e'.state.registers.peek_register r = .ok c := by
  have hstep : e.step = .ok { e₁.reset_wires.update_registers with cycles := e₁.cycles + 1 } := by
    rw [Engine.step, hrun]
  refine ⟨_, hstep, ?_, ?_⟩
  · simp [Engine.reset_wires, Engine.update_registers, RegisterMap.update, hreg,
      RegisterState.update]
  · simp [Engine.reset_wires, Engine.update_registers, RegisterMap.update,
      RegisterMap.peek_register, hreg, RegisterState.update]

theorem step_no_reset_witness :
    ∃ e', drainedEngine.step = .ok e' ∧
      e'.state.registers.data 1 = some ⟨5, 0, none⟩ ∧
      e'.state.registers.peek_register 1 = .ok 5 :=
  step_no_reset drainedEngine drainedEngine 1 5 0
    (runLoop_nil drainedEngine rfl) (by simp [drainedEngine])

/-! ## C3 -/

/-- C3: driving value `v` to a register whose pending slot is empty (the only
drive of the cycle) stages `v` without touching the current value, so
`peek_register` and `sample_register` keep returning the prior current value
`c` for the rest of the cycle; the commit performed by `step()` then makes
`peek_register` return `v` at the start of the next cycle. -/
theorem register_commit (m : RegisterMap) (r c rst v : Nat)
    (h : m.data r = some ⟨c, rst, none⟩) :
    ∃ m', m.stage r v = .ok m' ∧
      m'.peek_register r = .ok c ∧
      (∀ (wm : WireMap) (k : Nat → Task),
        pollTask ⟨wm, m'⟩ (.sampleReg r k) = pollTask ⟨wm, m'⟩ (k c)) ∧
      m'.update.data r = some ⟨v, rst, none⟩ ∧
      m'.update.peek_register r = .ok v ∧
      (∀ e : Engine, e.tasks = [] → e.state.registers = m' →
        ∃ e', e.step = .ok e' ∧ e'.state.registers.peek_register r = .ok v) := by
  refine ⟨{ m with data := Function.update m.data r (some ⟨c, rst, some v⟩) },
    ?_, ?_, ?_, ?_, ?_, ?_⟩
  · simp [RegisterMap.stage, h]
  · simp [RegisterMap.peek_register, Function.update_same]
  · intro wm k
    conv => lhs; rw [pollTask]
    simp [RegisterMap.peek_register, Function.update_same]
  · simp [RegisterMap.update, Function.update_same, RegisterState.update]
  · simp [RegisterMap.update, RegisterMap.peek_register, Function.update_same,
      RegisterState.update]
  · intro e he hregs
    have hstep : e.step = .ok { e.reset_wires.update_registers with cycles := e.cycles + 1 } := by
      rw [Engine.step, runLoop_nil e he]
    refine ⟨_, hstep, ?_⟩
    simp [Engine.reset_wires, Engine.update_registers, hregs, RegisterMap.update,
      RegisterMap.peek_register, Function.update_same, RegisterState.update]

theorem register_commit_witness :
    ∃ m', oneQuietReg.stage 1 9 = .ok m' ∧
      m'.peek_register 1 = .ok 3 ∧
      (∀ (wm : WireMap) (k : Nat → Task),
        pollTask ⟨wm, m'⟩ (.sampleReg 1 k) = pollTask ⟨wm, m'⟩ (k 3)) ∧
      m'.update.data 1 = some ⟨9, 0, none⟩ ∧
      m'.update.peek_register 1 = .ok 9 ∧
      (∀ e : Engine, e.tasks = [] → e.state.registers = m' →
        ∃ e', e.step = .ok e' ∧ e'.state.registers.peek_register 1 = .ok 9) :=
  register_commit oneQuietReg 1 3 0 9 (by simp [oneQuietReg])

/-! ## C4 -/

/-- C4: whenever `step()` completes a cycle, the wire-clearing phase leaves
the set of allocated wires unchanged (an id is allocated afterwards iff it
was allocated when the tasks drained) and every allocated wire reads `None`
at the start of the new cycle. -/
theorem cycle_isolation (e e₁ : Engine) (hrun : e.runLoop = .ok e₁) :
    ∃ e', e.step = .ok e' ∧
      (∀ w, (e'.state.wires.data w).isSome = (e₁.state.wires.data w).isSome) ∧
      (∀ w cell, e₁.state.wires.data w = some cell →
        e'.state.wires.data w = some none ∧ e'.state.wires.peek_wire w = .ok none) := by
  have hstep : e.step = .ok { e₁.reset_wires.update_registers with cycles := e₁.cycles + 1 } := by
    rw [Engine.step, hrun]
  refine ⟨_, hstep, ?_, ?_⟩
  · intro w
    simp [Engine.reset_wires, Engine.update_registers, WireMap.reset]
  · intro w cell hw
    refine ⟨?_, ?_⟩
    · simp [Engine.reset_wires, Engine.update_registers, WireMap.reset, hw]
    · simp [Engine.reset_wires, Engine.update_registers, WireMap.reset, WireMap.peek_wire, hw]

theorem cycle_isolation_witness :
    ∃ e', drivenWireEngine.step = .ok e' ∧
      (∀ w, (e'.state.wires.data w).isSome =
        (drivenWireEngine.state.wires.data w).isSome) ∧
      (∀ w cell, drivenWireEngine.state.wires.data w = some cell →
        e'.state.wires.data w = some none ∧ e'.state.wires.peek_wire w = .ok none) :=
  cycle_isolation drivenWireEngine drivenWireEngine (runLoop_nil drivenWireEngine rfl)

/-! ## C6 -/

/-- C6 counterexample: a well-behaved two-task model (a producer and a
consumer of one wire) completes each cycle after exactly one pending poll
(`okSteps … = some 1`), and 31 repetitions of `step()` still succeed — but
the 32nd trips the step limit, because the counter `Engine.steps` is never
reset between cycles and the bound is a hardcoded 32, not a configurable
limit of order 1024. -/
theorem step_limit_cumulative_cex :
    okSteps (wbCycle (Engine.new oneWireState)) = some 1 ∧
    isOkE (wbIter 31 (Engine.new oneWireState)) = true ∧
    wbIter 32 (Engine.new oneWireState) = .error .stepLimit := by
  refine ⟨?_, ?_, ?_⟩
  · rw [wbCycle_eq]; rfl
  · rw [wbIter_eq]; rfl
  · rw [wbIter_eq]; rfl

/-- C6 (amended): the scheduler bound is the hardcoded constant 32 (not a
configurable limit of order 1024): whenever the cumulative step counter has
reached `STEP_LIMIT` and the queue is non-empty, `run` fails with the
step-limit panic, regardless of how many cycles contributed to the counter. -/
theorem step_limit_hardcoded (e : Engine) (h32 : STEP_LIMIT ≤ e.steps)
    (hne : e.tasks ≠ []) :
    e.runLoop = .error .stepLimit ∧ STEP_LIMIT = 32 :=
  ⟨runLoop_limit e h32 hne, rfl⟩

theorem step_limit_hardcoded_witness :
    limitEngine.runLoop = .error .stepLimit ∧ STEP_LIMIT = 32 :=
  step_limit_hardcoded limitEngine (by decide) (by simp [limitEngine])

/-! ## C5 -/

/-- C5 counterexample: at the cyclic two-task input of spec scenario 6
(A samples wire 1 then would drive wire 2, B samples wire 2 then would drive
wire 1), one full rotation of the queue makes no progress — each task polls
back to itself with the state unchanged, the claimed trigger for
`StallDeadlock` — yet `run` does not fail with a deadlock report naming the
pending tasks: it keeps rotating until the cumulative step counter reaches
the hardcoded limit and panics with the step-limit assertion. -/
theorem stall_deadlock_cex :
    pollTask deadlockEngine.state dTaskA.fut = .ok (deadlockEngine.state, some dTaskA.fut) ∧
    pollTask deadlockEngine.state dTaskB.fut = .ok (deadlockEngine.state, some dTaskB.fut) ∧
    deadlockEngine.runLoop = .error .stepLimit := by
  refine ⟨rfl, rfl, ?_⟩
  rw [runLoop_eq_fuel]
  rfl

theorem deadlock_aux : ∀ (n : Nat) (e : Engine), STEP_LIMIT - e.steps ≤ n →
    AllBlocked e.state e.tasks → e.tasks ≠ [] → e.runLoop = .error .stepLimit := by
  intro n
  induction n with
  | zero =>
    intro e hn hb hne
    exact runLoop_limit e (by omega) hne
  | succ n ih =>
    intro e hn hb hne
    by_cases hs : e.steps < STEP_LIMIT
    · rw [Engine.runLoop]
      split
      · simp_all
      · next t rest heq =>
        rw [dif_pos hs]
        have hbt : pollTask e.state t.fut = .ok (e.state, some t.fut) :=
          hb t (by rw [heq]; exact List.mem_cons_self _ _)
        rw [hbt]
        apply ih
        · show STEP_LIMIT - (e.steps + 1) ≤ n
          omega
        · intro u hu
          rcases List.mem_append.mp hu with h1 | h1
          · exact hb u (by rw [heq]; exact List.mem_cons_of_mem _ h1)
          · have hu2 : u = ⟨t.name, t.fut⟩ := List.mem_singleton.mp h1
            subst hu2
            exact hb t (by rw [heq]; exact List.mem_cons_self _ _)
        · simp
    · exact runLoop_limit e (by omega) hne

/-- C5 (amended): the code has no no-progress detector and no `StallDeadlock`
error.  Whenever every queued task is stuck — polling it suspends, returning
the same task and leaving the state unchanged, which is exactly the state a
cyclic dependency or an undriven read produces — `run` rotates the non-empty
queue until the cumulative step counter reaches the hardcoded limit and then
fails with the step-limit panic, which carries no pending task names. -/
theorem deadlock_hits_step_limit (e : Engine) (hb : AllBlocked e.state e.tasks)
    (hne : e.tasks ≠ []) : e.runLoop = .error .stepLimit :=
  deadlock_aux (STEP_LIMIT - e.steps) e (le_refl _) hb hne

theorem deadlock_hits_step_limit_witness : deadlockEngine.runLoop = .error .stepLimit :=
  deadlock_hits_step_limit deadlockEngine
    (by
      intro t ht
      simp only [deadlockEngine, List.mem_cons, List.not_mem_nil, or_false] at ht
      rcases ht with rfl | rfl <;> rfl)
    (by simp [deadlockEngine])

/-! ## C7 -/

/-- C7 counterexample: `chainEngine` is an acyclic 34-task model — 33 chain
stages `sample wire i; drive wire (i+1)` plus the single driver of wire 1 —
whose sampled wires all have exactly one driver, yet `run` does not terminate
with an empty queue: the driver sits last in the queue, the first rotation
spends the whole hardcoded step budget on pending polls, and `run` panics
with the step limit. -/
theorem dag_progress_cex : chainEngine.runLoop = .error .stepLimit := by
  rw [runLoop_eq_fuel]
  rfl

theorem run_ok_drains_aux : ∀ (n : Nat) (e e' : Engine),
    (STEP_LIMIT - e.steps) + e.tasks.length ≤ n → e.runLoop = .ok e' →
    e'.tasks = [] ∧ e.steps ≤ e'.steps ∧
      (e.steps ≤ STEP_LIMIT → e'.steps ≤ STEP_LIMIT) := by
  intro n
  induction n with
  | zero =>
    intro e e' hn h
    have htasks : e.tasks = [] := by
      cases ht : e.tasks with
      | nil => rfl
      | cons t rest =>
        exfalso
        rw [ht] at hn
        simp [List.length_cons] at hn
    rw [runLoop_nil e htasks] at h
    cases h
    exact ⟨htasks, le_refl _, fun hh => hh⟩
  | succ n ih =>
    intro e e' hn h
    rw [Engine.runLoop] at h
    split at h
    · next heq =>
      cases h
      exact ⟨heq, le_refl _, fun hh => hh⟩
    · next t rest heq =>
      by_cases hs : e.steps < STEP_LIMIT
      · rw [dif_pos hs] at h
        cases hp : pollTask e.state t.fut with
        | error err =>
          rw [hp] at h
          cases h
        | ok p =>
          rcases p with ⟨s', tk⟩
          rw [hp] at h
          cases tk with
          | none =>
            have hrec := ih { tasks := rest, state := s', steps := e.steps, cycles := e.cycles }
              e' (by
                show (STEP_LIMIT - e.steps) + rest.length ≤ n
                rw [heq] at hn
                simp only [List.length_cons] at hn
                omega) h
            exact ⟨hrec.1, hrec.2.1, hrec.2.2⟩
          | some t' =>
            have hrec := ih ⟨rest ++ [{ t with fut := t' }], s', e.steps + 1, e.cycles⟩ e' (by
                show (STEP_LIMIT - (e.steps + 1)) + (rest ++ [{ t with fut := t' }]).length ≤ n
                rw [heq] at hn
                simp only [List.length_cons, List.length_append, List.length_nil] at hn ⊢
                omega) h
            have h21 : e.steps + 1 ≤ e'.steps := hrec.2.1
            refine ⟨hrec.1, by omega, fun _ => ?_⟩
            exact hrec.2.2 (by show e.steps + 1 ≤ STEP_LIMIT; omega)
      · rw [dif_neg hs] at h
        cases h

/-- C7 (amended): `run` always terminates, and whenever it returns
successfully the task queue has drained and the cumulative step counter never
moved past the hardcoded limit (so a successful run of N tasks takes at most
N + 32 polls); but success is not guaranteed for every acyclic task set —
a DAG whose pending polls exhaust the hardcoded budget fails with the
step-limit panic instead (see the counterexample). -/
theorem run_ok_drains (e e' : Engine) (h : e.runLoop = .ok e') :
    e'.tasks = [] ∧ e.steps ≤ e'.steps ∧
      (e.steps ≤ STEP_LIMIT → e'.steps ≤ STEP_LIMIT) :=
  run_ok_drains_aux ((STEP_LIMIT - e.steps) + e.tasks.length) e e' (le_refl _) h

theorem run_ok_drains_witness :
    (Engine.mk [] EngineState.new 0 0).tasks = [] ∧
    smallEngine.steps ≤ (Engine.mk [] EngineState.new 0 0).steps ∧
    (smallEngine.steps ≤ STEP_LIMIT →
      (Engine.mk [] EngineState.new 0 0).steps ≤ STEP_LIMIT) :=
  run_ok_drains smallEngine (Engine.mk [] EngineState.new 0 0)
    (by rw [runLoop_eq_fuel]; rfl)

/-! ## C8 -/

/-- C8 counterexample, refuting P7 as stated on two fronts.  First (register
conjuncts): two tasks that drive the same register with different values form
a trivially acyclic task set and both schedule orders complete, but the
committed register value after `step()` is whatever the last-polled drive
staged — order `[drive 1, drive 2]` commits 2 while `[drive 2, drive 1]`
commits 1.  Second (chain conjuncts): even with a single driver per signal,
"identical final values" fails outright because completion itself is
schedule-dependent — the acyclic 34-task chain (33 data-dependent stages plus
the driver of wire 1, every sampled wire driven) completes when the driver is
scheduled first, yet its permutation with the driver last exhausts the
cumulative step budget mid-rotation and panics with the step limit, producing
no final values at all. -/
theorem order_dependence_cex :
    okRegPeek sameRegAB.step 1 = some 2 ∧ okRegPeek sameRegBA.step 1 = some 1 ∧
    sChainGood.Perm sChainBad ∧
    isOkE (mkSEngine sChainGood chainState).runLoop = true ∧
    (mkSEngine sChainBad chainState).runLoop = .error .stepLimit := by
  refine ⟨?_, ?_, ?_, ?_, ?_⟩
  · rw [step_eq_stepFuel]; rfl
  · rw [step_eq_stepFuel]; rfl
  · exact (List.perm_append_singleton _ _).symm
  · rw [runLoop_eq_fuel]; rfl
  · rw [runLoop_eq_fuel]; rfl

/-- C8 (amended): determinism of completed runs.  For task sets in the
sample-then-drive shape that P7's read/write dependency graph describes —
each task samples a fixed list of wires and registers, then drives a fixed
list of wires and registers with values computed from the samples — if two
schedule orders are permutations of each other, each register has at most one
driver across the task set, and both orders run to completion, then the two
runs end with identical final wire values and identical final register
values.  Both provisos are forced by the counterexample: a doubly-driven
register commits the last-polled value, and completion itself is
order-dependent because of the cumulative step limit.  (No single-driver
condition is needed for wires: a double wire drive is fatal, so it is
excluded by completion itself.) -/
theorem sorder_independence (ts₁ ts₂ : List STask) (s : EngineState) (e₁ e₂ : Engine)
    (hperm : ts₁.Perm ts₂)
    (hreg : (allRegTargets ts₁).Nodup)
    (h₁ : (mkSEngine ts₁ s).runLoop = .ok e₁)
    (h₂ : (mkSEngine ts₂ s).runLoop = .ok e₂) :
    (∀ w, e₁.state.wires.data w = e₂.state.wires.data w) ∧
    (∀ r, e₁.state.registers.data r = e₂.state.registers.data r) := by
  have hreg₂ : (allRegTargets ts₂).Nodup := (allRegTargets_perm hperm).nodup hreg
  have hE₁ := srun_inv _ (mkSEngine ts₁ s) e₁ ts₁ (le_refl _) h₁
    (initial_resid e₁.state ts₁) hreg
  have hE₂ := srun_inv _ (mkSEngine ts₂ s) e₂ ts₂ (le_refl _) h₂
    (initial_resid e₂.state ts₂) hreg₂
  have hmono₁ := runLoop_mono _ _ h₁
  have hmono₂ := runLoop_mono _ _ h₂
  have hnd₁ : ∀ t ∈ ts₁, (sRegTargets t).Nodup :=
    fun t ht => nodup_sRegTargets_of_mem hreg ht
  have hnd₂ : ∀ t ∈ ts₂, (sRegTargets t).Nodup :=
    fun t ht => nodup_sRegTargets_of_mem hreg₂ ht
  have hcross₁ : ReadAgree e₁.state e₂.state :=
    scross_inv _ (mkSEngine ts₁ s) e₁ e₂.state ts₁ ts₁ (le_refl _) h₁
      (initial_resid e₂.state ts₁) (fun t ht => ht)
      (fun t ht => hE₂.1 t (hperm.mem_iff.mp ht))
      hnd₁ (readAgree_of_evolve hmono₂)
  have hcross₂ : ReadAgree e₂.state e₁.state :=
    scross_inv _ (mkSEngine ts₂ s) e₂ e₁.state ts₂ ts₂ (le_refl _) h₂
      (initial_resid e₁.state ts₂) (fun t ht => ht)
      (fun t ht => hE₁.1 t (hperm.mem_iff.mpr ht))
      hnd₂ (readAgree_of_evolve hmono₁)
  have hwires : ∀ w, e₁.state.wires.data w = e₂.state.wires.data w := by
    intro w
    rcases hmono₁.2.1 w with ha | ⟨_, v, hv⟩
    · rcases hmono₂.2.1 w with hb | ⟨_, v', hv'⟩
      · exact ha.trans hb.symm
      · rw [hv']
        exact hcross₂.1 w v' hv'
    · rw [hv]
      exact (hcross₁.1 w v hv).symm
  refine ⟨hwires, fun r => ?_⟩
  have hsig : (e₁.state.registers.data r).map regSig
      = (e₂.state.registers.data r).map regSig := hcross₁.2 r
  by_cases hmem : r ∈ allRegTargets ts₁
  · obtain ⟨t, htm, hrt⟩ := mem_allRegTargets.mp hmem
    obtain ⟨f, hf⟩ := exists_of_mem_wRegTargets hrt
    obtain ⟨vals₁, hv₁, _, hr₁⟩ := hE₁.1 t htm
    obtain ⟨vals₂, hv₂, _, hr₂⟩ := hE₂.1 t (hperm.mem_iff.mp htm)
    have hveq : vals₁ = vals₂ :=
      readValsF_unique (readValsF_transport hwires (fun r' => hcross₁.2 r') hv₁) hv₂
    have hn₁ := hr₁ r f hf
    have hn₂ := hr₂ r f hf
    have hnext : regNext e₁.state r = regNext e₂.state r := by
      rw [hn₁, hn₂, hveq]
    exact regOpt_ext hsig hnext
  · have hmem₂ : r ∉ allRegTargets ts₂ :=
      fun hm => hmem ((allRegTargets_perm hperm).mem_iff.mpr hm)
    have k₁ := hE₁.2 r hmem
    have k₂ := hE₂.2 r hmem₂
    have hnext : regNext e₁.state r = regNext e₂.state r := k₁.trans k₂.symm
    exact regOpt_ext hsig hnext

theorem sorder_independence_witness :
    (∀ w, sPairRun₁.state.wires.data w = sPairRun₂.state.wires.data w) ∧
    (∀ r, sPairRun₁.state.registers.data r = sPairRun₂.state.registers.data r) :=
  sorder_independence sPair₁ sPair₂ sPairState sPairRun₁ sPairRun₂
    (List.Perm.swap _ _ _)
    (by decide)
    (by rw [runLoop_eq_fuel]; rfl)
    (by rw [runLoop_eq_fuel]; rfl)

end Mafic